import Mathlib

/-!
Verification of the PPO agent in `DensePacking/model/ppo/ppo.py`.

The agent's numeric pipelines (GAE advantage estimation, action clipping and
rescaling, the clipped-surrogate loss, advantage normalization, and the
training loop's bookkeeping) are shallowly embedded: tensors become lists over
a linear ordered field (rationals for concrete evaluation, reals where
`np.std`'s square root is needed), the policy network and the per-dimension
Gaussian log-density are abstract function parameters, and the training loop
becomes a fuel-indexed state-transition function.
-/

namespace PPO

/-- Elementwise clipping of a scalar, as `tf.clip_by_value` / `np.clip`. -/
def clip {α : Type*} [LinearOrderedField α] (x lo hi : α) : α :=
  min (max x lo) hi

/-- Pointwise combination of three equal-length lists; the componentwise view
of elementwise tensor arithmetic over three tensors.  Extra elements of longer
lists are dropped, as `zip` does in Python. -/
def map3 {α β γ δ : Type*} (f : α → β → γ → δ) : List α → List β → List γ → List δ
  | a :: as, b :: bs, c :: cs => f a b c :: map3 f as bs cs
  | _, _, _ => []

/-- Mean of a list of scalars, as `np.mean` / `tf.reduce_mean` (the empty
list yields `0/0 = 0` in field arithmetic). -/
def meanL {α : Type*} [LinearOrderedField α] (l : List α) : α :=
  l.sum / l.length

@[simp] theorem map3_nil_left {α β γ δ : Type*} (f : α → β → γ → δ) (bs : List β) (cs : List γ) :
    map3 f [] bs cs = [] := by
  cases bs <;> cases cs <;> rfl

@[simp] theorem map3_nil_mid {α β γ δ : Type*} (f : α → β → γ → δ) (as : List α) (cs : List γ) :
    map3 f as [] cs = [] := by
  cases as <;> cases cs <;> rfl

@[simp] theorem map3_nil_right {α β γ δ : Type*} (f : α → β → γ → δ) (as : List α) (bs : List β) :
    map3 f as bs [] = [] := by
  cases as <;> cases bs <;> rfl

@[simp] theorem map3_cons {α β γ δ : Type*} (f : α → β → γ → δ)
    (a : α) (as : List α) (b : β) (bs : List β) (c : γ) (cs : List γ) :
    map3 f (a :: as) (b :: bs) (c :: cs) = f a b c :: map3 f as bs cs := rfl

theorem map3_length {α β γ δ : Type*} (f : α → β → γ → δ) :
    ∀ (as : List α) (bs : List β) (cs : List γ),
      (map3 f as bs cs).length = min (min as.length bs.length) cs.length
  | [], bs, cs => by simp
  | _ :: _, [], cs => by simp
  | _ :: _, _ :: _, [] => by simp
  | a :: as, b :: bs, c :: cs => by
    simp [map3_length f as bs cs]
    omega

theorem map3_getD {α β γ δ : Type*} (f : α → β → γ → δ) :
    ∀ (as : List α) (bs : List β) (cs : List γ) (i : ℕ)
      (d : δ) (da : α) (db : β) (dc : γ),
      i < as.length → i < bs.length → i < cs.length →
      (map3 f as bs cs).getD i d = f (as.getD i da) (bs.getD i db) (cs.getD i dc)
  | [], _, _, i, _, _, _, _ => by simp
  | _ :: _, [], _, i, _, _, _, _ => by simp
  | _ :: _, _ :: _, [], i, _, _, _, _ => by simp
  | a :: as, b :: bs, c :: cs, 0, d, da, db, dc => by simp
  | a :: as, b :: bs, c :: cs, i + 1, d, da, db, dc => by
    intro h1 h2 h3
    simpa using map3_getD f as bs cs i d da db dc
      (by simpa using h1) (by simpa using h2) (by simpa using h3)

/-! ## Generalized advantage estimation (`PPO.get_gaes`)

The source computes `deltas` by a triple `zip` over rewards, next-value
predictions and value predictions, copies them into `gaes`, and then walks
`t = T-2, ..., 0` updating `gaes[t] += lam * gamma * gaes[t+1]` in place.
When index `t` is processed, `gaes[t+1]` already holds its final value, so the
result satisfies `gae[t] = delta[t] + lam * gamma * gae[t+1]` with
`gae[T-1] = delta[T-1]`; `gaesAux` computes exactly that backward pass. -/

/-- The `deltas` of `PPO.get_gaes`: `delta[t] = r[t] + gamma * next_v[t] - v[t]`,
from `zip(rewards, next_v_preds, v_preds)`. -/
def deltasOf {α : Type*} [LinearOrderedField α]
    (γ : α) (rewards v_preds next_v_preds : List α) : List α :=
  map3 (fun r_t v_next v => r_t + γ * v_next - v) rewards next_v_preds v_preds

/-- The backward in-place loop of `PPO.get_gaes`, with `k = lam * gamma`. -/
def gaesAux {α : Type*} [LinearOrderedField α] (k : α) : List α → List α
  | [] => []
  | d :: ds =>
    match gaesAux k ds with
    | [] => [d]
    | g :: gs => (d + k * g) :: g :: gs

/-- The function `PPO.get_gaes(rewards, v_preds, next_v_preds)`. -/
def get_gaes {α : Type*} [LinearOrderedField α]
    (γ lam : α) (rewards v_preds next_v_preds : List α) : List α :=
  gaesAux (lam * γ) (deltasOf γ rewards v_preds next_v_preds)

theorem gaesAux_cons_of_nil {α : Type*} [LinearOrderedField α] (k : α)
    (d : α) (ds : List α) (h : gaesAux k ds = []) :
    gaesAux k (d :: ds) = [d] := by
  rw [gaesAux, h]

theorem gaesAux_cons_of_cons {α : Type*} [LinearOrderedField α] (k : α)
    (d g : α) (ds gs : List α) (h : gaesAux k ds = g :: gs) :
    gaesAux k (d :: ds) = (d + k * g) :: g :: gs := by
  rw [gaesAux, h]

theorem gaesAux_length {α : Type*} [LinearOrderedField α] (k : α) :
    ∀ ds : List α, (gaesAux k ds).length = ds.length
  | [] => rfl
  | d :: ds => by
    have ih := gaesAux_length k ds
    cases h : gaesAux k ds with
    | nil =>
      rw [h] at ih
      have hds : ds.length = 0 := by simpa using ih.symm
      rw [gaesAux_cons_of_nil k d ds h]
      simp [hds]
    | cons g gs =>
      rw [h] at ih
      rw [gaesAux_cons_of_cons k d g ds gs h]
      simp at ih ⊢
      omega

/-- The last entry of the backward pass is the last delta. -/
theorem gaesAux_last {α : Type*} [LinearOrderedField α] (k : α) :
    ∀ ds : List α, ds ≠ [] →
      (gaesAux k ds).getD (ds.length - 1) 0 = ds.getD (ds.length - 1) 0
  | [], h => absurd rfl h
  | [d], _ => rfl
  | d :: e :: ds, _ => by
    have ih := gaesAux_last k (e :: ds) (by simp)
    have hlen : (gaesAux k (e :: ds)).length = ds.length + 1 := by
      simpa using gaesAux_length k (e :: ds)
    cases h : gaesAux k (e :: ds) with
    | nil => simp [h] at hlen
    | cons g gs =>
      rw [gaesAux_cons_of_cons k d g (e :: ds) gs h]
      rw [h] at ih
      simpa using ih

/-- The backward pass satisfies the GAE recurrence at every non-final index. -/
theorem gaesAux_rec {α : Type*} [LinearOrderedField α] (k : α) :
    ∀ (ds : List α) (t : ℕ), t + 1 < ds.length →
      (gaesAux k ds).getD t 0 = ds.getD t 0 + k * (gaesAux k ds).getD (t + 1) 0
  | [], t, h => by simp at h
  | [d], t, h => by simp at h
  | d :: e :: ds, t, h => by
    have hlen : (gaesAux k (e :: ds)).length = ds.length + 1 := by
      simpa using gaesAux_length k (e :: ds)
    cases hg : gaesAux k (e :: ds) with
    | nil => simp [hg] at hlen
    | cons g gs =>
      rw [gaesAux_cons_of_cons k d g (e :: ds) gs hg]
      cases t with
      | zero => simp
      | succ t =>
        have ih := gaesAux_rec k (e :: ds) t (by simpa using h)
        rw [hg] at ih
        simpa using ih

/-- C1: for every episode of length `T ≥ 1` with rewards `r`, value
predictions `v` and next-value predictions `nv`, `get_gaes` returns the
vector characterized by `delta[t] = r[t] + gamma*nv[t] - v[t]`,
`gae[T-1] = delta[T-1]`, and `gae[t] = delta[t] + lam*gamma*gae[t+1]` for
`t = T-2` down to `0`. -/
theorem c1_get_gaes_backward_recursion {α : Type*} [LinearOrderedField α]
    (γ lam : α) (r v nv : List α) (T : ℕ) (hT : 1 ≤ T)
    (hr : r.length = T) (hv : v.length = T) (hnv : nv.length = T) :
    (get_gaes γ lam r v nv).length = T ∧
    (get_gaes γ lam r v nv).getD (T - 1) 0
      = r.getD (T - 1) 0 + γ * nv.getD (T - 1) 0 - v.getD (T - 1) 0 ∧
    ∀ t, t + 1 < T →
      (get_gaes γ lam r v nv).getD t 0
        = (r.getD t 0 + γ * nv.getD t 0 - v.getD t 0)
          + lam * γ * (get_gaes γ lam r v nv).getD (t + 1) 0 := by
  have hdl : (deltasOf γ r v nv).length = T := by
    rw [deltasOf, map3_length, hr, hv, hnv]
    omega
  have hglen : (get_gaes γ lam r v nv).length = T := by
    rw [get_gaes, gaesAux_length, hdl]
  refine ⟨hglen, ?_, ?_⟩
  · have hlast := gaesAux_last (lam * γ) (deltasOf γ r v nv)
      (by intro hnil; rw [hnil] at hdl; simp at hdl; omega)
    rw [hdl] at hlast
    rw [get_gaes, hlast, deltasOf,
      map3_getD _ r nv v (T - 1) 0 0 0 0 (by omega) (by omega) (by omega)]
  · intro t ht
    have hrec := gaesAux_rec (lam * γ) (deltasOf γ r v nv) t (by omega)
    rw [get_gaes, hrec, deltasOf,
      map3_getD _ r nv v t 0 0 0 0 (by omega) (by omega) (by omega)]

/-- C1 witness: the recurrence theorem instantiated at the 3-step episode
with `gamma = lam = 1`, rewards `[1,1,1]`, zero value predictions; the GAE
vector there evaluates to `[3, 2, 1]`. -/
theorem c1_get_gaes_backward_recursion_witness :
    ((1 : ℕ) ≤ 3 ∧ ([(1 : ℚ), 1, 1]).length = 3) ∧
    (get_gaes (1 : ℚ) 1 [1, 1, 1] [0, 0, 0] [0, 0, 0]).length = 3 ∧
    (get_gaes (1 : ℚ) 1 [1, 1, 1] [0, 0, 0] [0, 0, 0]).getD (3 - 1) 0
      = ([(1 : ℚ), 1, 1]).getD (3 - 1) 0
        + 1 * ([(0 : ℚ), 0, 0]).getD (3 - 1) 0 - ([(0 : ℚ), 0, 0]).getD (3 - 1) 0 ∧
    get_gaes (1 : ℚ) 1 [1, 1, 1] [0, 0, 0] [0, 0, 0] = [3, 2, 1] :=
  ⟨⟨by decide, by decide⟩,
    (c1_get_gaes_backward_recursion 1 1 [1, 1, 1] [0, 0, 0] [0, 0, 0] 3
      (by decide) rfl rfl rfl).1,
    (c1_get_gaes_backward_recursion 1 1 [1, 1, 1] [0, 0, 0] [0, 0, 0] 3
      (by decide) rfl rfl rfl).2.1,
    by norm_num [get_gaes, deltasOf, gaesAux]⟩

/-! ## Action selection (`PPO.act`) and replay evaluation (`PPO.evaluate_actions`)

The policy network is a black box; its outputs for the single state fed to
`act` are the mean vector `mu` and scalar `value`.  The per-dimension Gaussian
log-density of `tfd.Normal(loc=mu, scale=exp(log_std)).log_prob` is the
abstract scalar function `logpdf mu_j logstd_j x_j`; the distribution sample
is the abstract vector `sampled`.  All tensor operations are componentwise. -/

/-- Summed per-sample log-probability: per-dimension `log_prob` followed by
`tf.reduce_sum(..., axis=-1)`. -/
def logProbSum {α : Type*} [LinearOrderedField α]
    (logpdf : α → α → α → α) (mu logstd a : List α) : α :=
  (map3 logpdf mu logstd a).sum

/-- The function `PPO.act(state, test)` after the network call: choose `mu` (test mode) or
the sample, clip to `[-1, 1]`, take the summed log-probability of the clipped
action, and rescale by `action * action_bound + action_shift`.  Returns
`(rescaled_action, value, log_prob)`. -/
def act {α : Type*} [LinearOrderedField α] (logpdf : α → α → α → α)
    (mu : List α) (value : α) (logstd bound shift sampled : List α)
    (test : Bool) : List α × α × α :=
  let a0 := if test then mu else sampled
  let a := a0.map (fun x => clip x (-1) 1)
  (map3 (fun x b s => x * b + s) a bound shift, value, logProbSum logpdf mu logstd a)

/-- The summed log-probability computed by `PPO.evaluate_actions` on a stored
action: the action is first un-rescaled by `(action - action_shift) /
action_bound`, then the per-dimension log-densities are summed. -/
def evalLogProb {α : Type*} [LinearOrderedField α] (logpdf : α → α → α → α)
    (mu logstd bound shift action : List α) : α :=
  logProbSum logpdf mu logstd (map3 (fun x b s => (x - s) / b) action bound shift)

theorem clip_mem_Icc {α : Type*} [LinearOrderedField α] (x : α) :
    -1 ≤ clip x (-1) 1 ∧ clip x (-1) 1 ≤ 1 :=
  ⟨le_min (le_max_right x (-1)) (by norm_num), min_le_right _ _⟩

theorem clip_rescale_bounds {α : Type*} [LinearOrderedField α]
    (x b s : α) (hb : 0 ≤ b) :
    s - b ≤ clip x (-1) 1 * b + s ∧ clip x (-1) 1 * b + s ≤ s + b := by
  obtain ⟨h1, h2⟩ := clip_mem_Icc x
  constructor
  · have : -b ≤ clip x (-1) 1 * b := by
      have := mul_le_mul_of_nonneg_right h1 hb
      simpa using this
    linarith
  · have : clip x (-1) 1 * b ≤ b := by
      have := mul_le_mul_of_nonneg_right h2 hb
      simpa using this
    linarith

theorem getD_map_of_lt {α β : Type*} (f : α → β) :
    ∀ (l : List α) (i : ℕ) (d : β) (da : α), i < l.length →
      (l.map f).getD i d = f (l.getD i da)
  | [], i, _, _, h => by simp at h
  | a :: l, 0, d, da, _ => rfl
  | a :: l, i + 1, d, da, h =>
    getD_map_of_lt f l i d da (by simpa using h)

theorem getD_mem_of_lt {α : Type*} :
    ∀ (l : List α) (i : ℕ) (d : α), i < l.length → l.getD i d ∈ l
  | [], i, _, h => by simp at h
  | a :: l, 0, d, _ => List.mem_cons_self a l
  | a :: l, i + 1, d, h =>
    List.mem_cons_of_mem a (getD_mem_of_lt l i d (by simpa using h))

/-- C4: for every network output, every sample (hence every random seed) and
both deterministic and stochastic modes, each component of the action
returned by `act` lies within `[action_shift - action_bound, action_shift +
action_bound]`, provided `action_bound` is componentwise nonnegative: the
normalized action is clipped to `[-1, 1]` before rescaling. -/
theorem c4_act_action_within_bounds {α : Type*} [LinearOrderedField α]
    (logpdf : α → α → α → α) (mu : List α) (value : α)
    (logstd bound shift sampled : List α) (test : Bool) (i : ℕ)
    (hb : ∀ b ∈ bound, 0 ≤ b)
    (hi : i < (act logpdf mu value logstd bound shift sampled test).1.length) :
    shift.getD i 0 - bound.getD i 0
      ≤ (act logpdf mu value logstd bound shift sampled test).1.getD i 0 ∧
    (act logpdf mu value logstd bound shift sampled test).1.getD i 0
      ≤ shift.getD i 0 + bound.getD i 0 := by
  set a0 := if test then mu else sampled with ha0
  have hlen : (act logpdf mu value logstd bound shift sampled test).1.length
      = min (min (a0.map (fun x => clip x (-1) 1)).length bound.length) shift.length := by
    rw [act, map3_length]
  rw [hlen] at hi
  have hia : i < a0.length := by
    have := lt_min_iff.mp hi
    simpa using (lt_min_iff.mp this.1).1
  have hib : i < bound.length := by
    have := lt_min_iff.mp hi
    exact (lt_min_iff.mp this.1).2
  have his : i < shift.length := (lt_min_iff.mp hi).2
  have hact : (act logpdf mu value logstd bound shift sampled test).1.getD i 0
      = clip (a0.getD i 0) (-1) 1 * bound.getD i 0 + shift.getD i 0 := by
    rw [act]
    rw [map3_getD _ _ _ _ i 0 0 0 0 (by simpa using hia) hib his]
    rw [getD_map_of_lt _ a0 i 0 0 hia]
  rw [hact]
  exact clip_rescale_bounds (a0.getD i 0) (bound.getD i 0) (shift.getD i 0)
    (hb _ (getD_mem_of_lt bound i 0 hib))

/-- C4 witness: with `bound = [3]`, `shift = [1]`, mean output `[2]` in
deterministic mode, the rescaled action component `clip 2 (-1) 1 * 3 + 1 = 4`
lies within `[1 - 3, 1 + 3]`. -/
theorem c4_act_action_within_bounds_witness :
    (∀ b ∈ [(3 : ℚ)], 0 ≤ b) ∧
    0 < (act (fun _ _ x => x) [(2 : ℚ)] 0 [0] [3] [1] [0] true).1.length ∧
    ([(1 : ℚ)]).getD 0 0 - ([(3 : ℚ)]).getD 0 0
      ≤ (act (fun _ _ x => x) [(2 : ℚ)] 0 [0] [3] [1] [0] true).1.getD 0 0 ∧
    (act (fun _ _ x => x) [(2 : ℚ)] 0 [0] [3] [1] [0] true).1.getD 0 0
      ≤ ([(1 : ℚ)]).getD 0 0 + ([(3 : ℚ)]).getD 0 0 := by
  have hb : ∀ b ∈ [(3 : ℚ)], 0 ≤ b := by
    intro b hbm
    rw [List.mem_singleton] at hbm
    rw [hbm]
    norm_num
  have hlen : 0 < (act (fun _ _ x => x) [(2 : ℚ)] 0 [0] [3] [1] [0] true).1.length := by
    rw [act]
    norm_num [map3_length]
  exact ⟨hb, hlen,
    c4_act_action_within_bounds (fun _ _ x => x) [2] 0 [0] [3] [1] [0] true 0 hb hlen⟩

theorem map3_unrescale_rescale {α : Type*} [LinearOrderedField α] :
    ∀ (a bound shift : List α), a.length = bound.length →
      shift.length = bound.length → (∀ b ∈ bound, b ≠ 0) →
      map3 (fun x b s => (x - s) / b)
        (map3 (fun x b s => x * b + s) a bound shift) bound shift = a
  | [], [], [], _, _, _ => rfl
  | [], b :: bs, _, h, _, _ => by simp at h
  | x :: xs, [], _, h, _, _ => by simp at h
  | x :: xs, b :: bs, [], _, h, _ => by simp at h
  | x :: xs, b :: bs, s :: ss, h1, h2, hb => by
    simp only [map3_cons, List.cons.injEq]
    constructor
    · have hbne : b ≠ 0 := hb b (List.mem_cons_self b bs)
      field_simp
    · exact map3_unrescale_rescale xs bs ss (by simpa using h1) (by simpa using h2)
        (fun y hy => hb y (List.mem_cons_of_mem b hy))

/-- C5: round-trip consistency between collection and replay.  For any action
produced and stored by `act`, the un-rescaling `(action - action_shift) /
action_bound` done by `evaluate_actions` recovers the clipped normalized
action (componentwise nonzero `action_bound` required), so under unchanged
policy parameters `evaluate_actions` returns exactly the summed
log-probability that `act` stored at collection time. -/
theorem c5_act_evaluate_roundtrip {α : Type*} [LinearOrderedField α]
    (logpdf : α → α → α → α) (mu : List α) (value : α)
    (logstd bound shift sampled : List α) (test : Bool)
    (hmu : mu.length = bound.length) (hsam : sampled.length = bound.length)
    (hsh : shift.length = bound.length) (hb : ∀ b ∈ bound, b ≠ 0) :
    map3 (fun x b s => (x - s) / b)
        (act logpdf mu value logstd bound shift sampled test).1 bound shift
      = ((if test then mu else sampled).map (fun x => clip x (-1) 1)) ∧
    evalLogProb logpdf mu logstd bound shift
        (act logpdf mu value logstd bound shift sampled test).1
      = (act logpdf mu value logstd bound shift sampled test).2.2 := by
  have ha0 : (if test then mu else sampled).length = bound.length := by
    cases test <;> simpa
  have hclip : ((if test then mu else sampled).map
      (fun x => clip x (-1) 1)).length = bound.length := by
    simpa using ha0
  have hrt := map3_unrescale_rescale
    ((if test then mu else sampled).map (fun x => clip x (-1) 1)) bound shift
    hclip hsh hb
  refine ⟨?_, ?_⟩
  · simpa [act] using hrt
  · rw [evalLogProb, act]
    simp only []
    rw [hrt]

/-- C5 witness: with `bound = [2]`, `shift = [1]`, sample `[3]` (clipped to
`1`), the stored action `[3]` un-rescales back to the clipped action `[1]`
and the replayed summed log-probability equals the stored one. -/
theorem c5_act_evaluate_roundtrip_witness :
    (([(1 : ℚ) / 2]).length = ([(2 : ℚ)]).length ∧
      ([(3 : ℚ)]).length = ([(2 : ℚ)]).length ∧
      ([(1 : ℚ)]).length = ([(2 : ℚ)]).length ∧
      ∀ b ∈ [(2 : ℚ)], b ≠ 0) ∧
    map3 (fun x b s => (x - s) / b)
        (act (fun m s x => x * 2 + m + s) [(1 : ℚ) / 2] 0 [5] [2] [1] [3] false).1 [2] [1]
      = ((if false then [(1 : ℚ) / 2] else [3]).map (fun x => clip x (-1) 1)) ∧
    evalLogProb (fun m s x => x * 2 + m + s) [(1 : ℚ) / 2] [5] [2] [1]
        (act (fun m s x => x * 2 + m + s) [(1 : ℚ) / 2] 0 [5] [2] [1] [3] false).1
      = (act (fun m s x => x * 2 + m + s) [(1 : ℚ) / 2] 0 [5] [2] [1] [3] false).2.2 := by
  have hb : ∀ b ∈ [(2 : ℚ)], b ≠ 0 := by
    intro b hbm
    rw [List.mem_singleton] at hbm
    rw [hbm]
    norm_num
  exact ⟨⟨rfl, rfl, rfl, hb⟩,
    (c5_act_evaluate_roundtrip (fun m s x => x * 2 + m + s) [(1 : ℚ) / 2] 0 [5]
      [2] [1] [3] false rfl rfl rfl hb).1,
    (c5_act_evaluate_roundtrip (fun m s x => x * 2 + m + s) [(1 : ℚ) / 2] 0 [5]
      [2] [1] [3] false rfl rfl rfl hb).2⟩

/-- C8: determinism of deterministic action selection.  Two calls to
`act(state, test=True)` with the same network outputs and the same policy
parameters (including `policy_log_std`) return identical actions, whatever
the sampler would have produced: the deterministic branch takes the network
mean instead of sampling. -/
theorem c8_act_deterministic {α : Type*} [LinearOrderedField α]
    (logpdf : α → α → α → α) (mu : List α) (value : α)
    (logstd bound shift sampled1 sampled2 : List α) :
    (act logpdf mu value logstd bound shift sampled1 true).1
      = (act logpdf mu value logstd bound shift sampled2 true).1 := rfl

/-! ## The learner (`PPO.learn`)

`learn` re-evaluates the current policy on the minibatch; the re-evaluated
quantities (`new_log_probs`, `state_values`, and the per-dimension entropy
tensor of shape batch x action_dim) are black-box network outputs and enter
the embedding as arguments.  `tf.exp` is the abstract scalar function `expf`.
All the loss arithmetic is embedded verbatim. -/

/-- The entropy term of `PPO.learn`: `tf.reduce_mean(entropy)` applied to the
full `(batch, action_dim)` entropy tensor returned by `evaluate_actions`,
i.e. the mean over all entries. -/
def entropyBonus {α : Type*} [LinearOrderedField α] (entropy : List (List α)) : α :=
  meanL entropy.flatten

/-- The loss pipeline of `PPO.learn`, returning
`(total_loss, loss_clip, vf_loss, entropy)`. -/
def learnLoss {α : Type*} [LinearOrderedField α] (expf : α → α)
    (clip_r γ c1 c2 : α)
    (log_probs new_log_probs gaes rewards next_v_preds state_values : List α)
    (entropy : List (List α)) : α × α × α × α :=
  let ratios := List.zipWith (fun nl ol => expf (nl - ol)) new_log_probs log_probs
  let clipped_ratios := ratios.map (fun x => clip x (1 - clip_r) (1 + clip_r))
  let loss_clip := meanL (List.zipWith min
    (List.zipWith (fun g x => g * x) gaes ratios)
    (List.zipWith (fun g x => g * x) gaes clipped_ratios))
  let target_values := List.zipWith (fun r nv => r + γ * nv) rewards next_v_preds
  let vf_loss := meanL (List.zipWith (fun sv t => (sv - t) ^ 2) state_values target_values)
  let ent := entropyBonus entropy
  (-loss_clip + c1 * vf_loss - c2 * ent, loss_clip, vf_loss, ent)

/-- The clipped surrogate as the specification states it: the mean over the
minibatch of the elementwise minimum of `advantages * ratio` and
`advantages * clip(ratio, 1 - clip_r, 1 + clip_r)`, with
`ratio = exp(new_log_probs - stored_log_probs)`; the minimum is taken per
sample, before the mean. -/
def surrogateSpec {α : Type*} [LinearOrderedField α] (expf : α → α)
    (clip_r : α) (log_probs new_log_probs gaes : List α) (n : ℕ) : α :=
  ((List.range n).map (fun t =>
    min (gaes.getD t 0 * expf (new_log_probs.getD t 0 - log_probs.getD t 0))
      (gaes.getD t 0
        * clip (expf (new_log_probs.getD t 0 - log_probs.getD t 0))
            (1 - clip_r) (1 + clip_r)))).sum / n

/-- The value loss as the specification states it:
`mean((state_values - (reward + gamma * next_v_pred))^2)`. -/
def valueLossSpec {α : Type*} [LinearOrderedField α]
    (γ : α) (rewards next_v_preds state_values : List α) (n : ℕ) : α :=
  ((List.range n).map (fun t =>
    (state_values.getD t 0 - (rewards.getD t 0 + γ * next_v_preds.getD t 0)) ^ 2)).sum / n

theorem getD_zipWith_of_lt {α β γ : Type*} (f : α → β → γ) :
    ∀ (as : List α) (bs : List β) (i : ℕ) (d : γ) (da : α) (db : β),
      i < as.length → i < bs.length →
      (List.zipWith f as bs).getD i d = f (as.getD i da) (bs.getD i db)
  | [], _, i, _, _, _ => by simp
  | _ :: _, [], i, _, _, _ => by simp
  | a :: as, b :: bs, 0, d, da, db => by simp
  | a :: as, b :: bs, i + 1, d, da, db => by
    intro h1 h2
    simpa using getD_zipWith_of_lt f as bs i d da db
      (by simpa using h1) (by simpa using h2)

theorem range_map_getD {α : Type*} (d : α) :
    ∀ l : List α, (List.range l.length).map (fun i => l.getD i d) = l
  | [] => rfl
  | a :: l => by
    rw [List.length_cons, List.range_succ_eq_map, List.map_cons, List.map_map]
    have hfun : ((fun i => (a :: l).getD i d) ∘ Nat.succ) = (fun i => l.getD i d) := by
      funext i
      simp
    rw [hfun, range_map_getD d l]
    simp

/-- C2: for every minibatch, `learn` computes the clipped surrogate as the
mean of the elementwise minimum of `advantages * ratio` and `advantages *
clip(ratio, 1 - clip_ratio, 1 + clip_ratio)` — the minimum taken per sample,
before the mean — with `ratio = exp(new_log_probs - stored_log_probs)`, and
the optimized objective equals `-surrogate + c1 * mean((state_values -
(reward + gamma * next_v_pred))^2) - c2 * entropy_bonus`. -/
theorem c2_learn_clipped_surrogate_objective {α : Type*} [LinearOrderedField α]
    (expf : α → α) (clip_r γ c1 c2 : α)
    (ol nl gaes rw nvp sv : List α) (ent : List (List α)) (n : ℕ)
    (hol : ol.length = n) (hnl : nl.length = n) (hg : gaes.length = n)
    (hrw : rw.length = n) (hnvp : nvp.length = n) (hsv : sv.length = n) :
    (learnLoss expf clip_r γ c1 c2 ol nl gaes rw nvp sv ent).2.1
      = surrogateSpec expf clip_r ol nl gaes n ∧
    (learnLoss expf clip_r γ c1 c2 ol nl gaes rw nvp sv ent).2.2.1
      = valueLossSpec γ rw nvp sv n ∧
    (learnLoss expf clip_r γ c1 c2 ol nl gaes rw nvp sv ent).1
      = -surrogateSpec expf clip_r ol nl gaes n
        + c1 * valueLossSpec γ rw nvp sv n - c2 * entropyBonus ent := by
  set ratios := List.zipWith (fun nl ol => expf (nl - ol)) nl ol with hratios
  have hrlen : ratios.length = n := by
    rw [hratios, List.length_zipWith, hnl, hol, min_self]
  have hclen : (ratios.map (fun x => clip x (1 - clip_r) (1 + clip_r))).length = n := by
    simpa using hrlen
  have hsurr : List.zipWith min
      (List.zipWith (fun g x => g * x) gaes ratios)
      (List.zipWith (fun g x => g * x) gaes
        (ratios.map (fun x => clip x (1 - clip_r) (1 + clip_r))))
      = (List.range n).map (fun t =>
          min (gaes.getD t 0 * expf (nl.getD t 0 - ol.getD t 0))
            (gaes.getD t 0
              * clip (expf (nl.getD t 0 - ol.getD t 0)) (1 - clip_r) (1 + clip_r))) := by
    set L := List.zipWith min
      (List.zipWith (fun g x => g * x) gaes ratios)
      (List.zipWith (fun g x => g * x) gaes
        (ratios.map (fun x => clip x (1 - clip_r) (1 + clip_r)))) with hL
    have hLlen : L.length = n := by
      rw [hL]
      simp only [List.length_zipWith, List.length_map]
      omega
    have hself := range_map_getD (0 : α) L
    rw [hLlen] at hself
    rw [← hself]
    apply List.map_congr_left
    intro t ht
    have htn : t < n := List.mem_range.mp ht
    rw [hL,
      getD_zipWith_of_lt min _ _ t 0 0 0
        (by simp only [List.length_zipWith]; omega)
        (by simp only [List.length_zipWith, List.length_map]; omega),
      getD_zipWith_of_lt _ gaes ratios t 0 0 0 (by omega) (by omega),
      getD_zipWith_of_lt _ gaes _ t 0 0 0 (by omega)
        (by simp only [List.length_map]; omega),
      getD_map_of_lt _ ratios t 0 0 (by omega),
      hratios, getD_zipWith_of_lt _ nl ol t 0 0 0 (by omega) (by omega)]
  have hvf : List.zipWith (fun sv t => (sv - t) ^ 2) sv
      (List.zipWith (fun r nv => r + γ * nv) rw nvp)
      = (List.range n).map (fun t =>
          (sv.getD t 0 - (rw.getD t 0 + γ * nvp.getD t 0)) ^ 2) := by
    set V := List.zipWith (fun sv t => (sv - t) ^ 2) sv
      (List.zipWith (fun r nv => r + γ * nv) rw nvp) with hV
    have hVlen : V.length = n := by
      rw [hV]
      simp only [List.length_zipWith]
      omega
    have hself := range_map_getD (0 : α) V
    rw [hVlen] at hself
    rw [← hself]
    apply List.map_congr_left
    intro t ht
    have htn : t < n := List.mem_range.mp ht
    rw [hV,
      getD_zipWith_of_lt _ sv _ t 0 0 0 (by omega)
        (by simp only [List.length_zipWith]; omega),
      getD_zipWith_of_lt _ rw nvp t 0 0 0 (by omega) (by omega)]
  have hsl : (List.zipWith min
      (List.zipWith (fun g x => g * x) gaes ratios)
      (List.zipWith (fun g x => g * x) gaes
        (ratios.map (fun x => clip x (1 - clip_r) (1 + clip_r))))).length = n := by
    rw [hsurr]
    simp
  have hvl : (List.zipWith (fun sv t => (sv - t) ^ 2) sv
      (List.zipWith (fun r nv => r + γ * nv) rw nvp)).length = n := by
    rw [hvf]
    simp
  constructor
  · show meanL _ = _
    rw [meanL, hsl, hsurr, surrogateSpec]
  constructor
  · show meanL _ = _
    rw [meanL, hvl, hvf, valueLossSpec]
  · show -meanL _ + c1 * meanL _ - c2 * entropyBonus ent = _
    rw [meanL, hsl, hsurr, surrogateSpec, meanL, hvl, hvf, valueLossSpec]

/-- C2 witness: a concrete two-sample minibatch on which the learner's
surrogate, value loss, and total objective match the specification formulas. -/
theorem c2_learn_clipped_surrogate_objective_witness :
    (([(0 : ℚ), 1]).length = 2 ∧ ([(2 : ℚ), 1]).length = 2 ∧
      ([(1 : ℚ), -1]).length = 2 ∧ ([(1 : ℚ), 0]).length = 2 ∧
      ([(3 : ℚ), 2]).length = 2 ∧ ([(1 : ℚ), 2]).length = 2) ∧
    (learnLoss (fun x : ℚ => x + 1) (1 / 2) (1 / 4) 1 (1 / 10)
        [0, 1] [2, 1] [1, -1] [1, 0] [3, 2] [1, 2] [[5]]).2.1
      = surrogateSpec (fun x : ℚ => x + 1) (1 / 2) [0, 1] [2, 1] [1, -1] 2 ∧
    (learnLoss (fun x : ℚ => x + 1) (1 / 2) (1 / 4) 1 (1 / 10)
        [0, 1] [2, 1] [1, -1] [1, 0] [3, 2] [1, 2] [[5]]).2.2.1
      = valueLossSpec ((1 : ℚ) / 4) [1, 0] [3, 2] [1, 2] 2 ∧
    (learnLoss (fun x : ℚ => x + 1) (1 / 2) (1 / 4) 1 (1 / 10)
        [0, 1] [2, 1] [1, -1] [1, 0] [3, 2] [1, 2] [[5]]).1
      = -surrogateSpec (fun x : ℚ => x + 1) (1 / 2) [0, 1] [2, 1] [1, -1] 2
        + 1 * valueLossSpec ((1 : ℚ) / 4) [1, 0] [3, 2] [1, 2] 2
        - (1 / 10) * entropyBonus [[(5 : ℚ)]] :=
  ⟨⟨rfl, rfl, rfl, rfl, rfl, rfl⟩,
    c2_learn_clipped_surrogate_objective (fun x : ℚ => x + 1) (1 / 2) (1 / 4) 1 (1 / 10)
      [0, 1] [2, 1] [1, -1] [1, 0] [3, 2] [1, 2] [[5]] 2 rfl rfl rfl rfl rfl rfl⟩

/-! ## Entropy aggregation (C3)

`evaluate_actions` returns `dist.entropy()` unreduced: for
`tfd.Normal(loc = output, scale = exp(log_std))` the per-dimension entropy
depends only on `log_std`, so broadcasting against the `(batch, action_dim)`
location tensor yields `batch` identical rows, each row being the
per-dimension entropies of the `action_dim` Gaussians.  `learn` then applies
a single `tf.reduce_mean` to this whole tensor. -/

/-- The entropy tensor returned by `PPO.evaluate_actions` for a batch of the
given size: one identical row of per-dimension entropies per sample (the
per-dimension entropy `entDim` is an abstract function of the corresponding
`policy_log_std` entry, since a Gaussian's entropy is independent of its
location). -/
def evaluateEntropy {α : Type*} (entDim : α → α) (logstd : List α)
    (batch : ℕ) : List (List α) :=
  List.replicate batch (logstd.map entDim)

/-- Modelled from the spec: the aggregation the specification claims for the
entropy term — per-dimension entropies summed across action dimensions to one
scalar per sample, then averaged over the minibatch, exactly as `log_prob` is
aggregated. -/
def entropySummedPerSample {α : Type*} [LinearOrderedField α]
    (entropy : List (List α)) : α :=
  meanL (entropy.map List.sum)

/-- C3 counterexample: with two action dimensions (per-dimension entropy `1`
each) and a batch of two samples, `learn`'s entropy term is `1`, while the
claimed sum-across-dimensions-then-mean aggregation gives `2`. -/
theorem c3_counterexample_entropy_not_summed :
    (learnLoss (fun x => x) 0 0 1 1 [] [] [] [] [] []
        (evaluateEntropy (fun _ => (1 : ℚ)) [0, 0] 2)).2.2.2
      ≠ entropySummedPerSample (evaluateEntropy (fun _ => (1 : ℚ)) [0, 0] 2) := by
  norm_num [learnLoss, entropyBonus, entropySummedPerSample, evaluateEntropy, meanL]

theorem sum_flatten_replicate {M : Type*} [AddCommMonoid M] :
    ∀ (n : ℕ) (l : List M), (List.replicate n l).flatten.sum = n • l.sum
  | 0, l => by simp
  | n + 1, l => by
    rw [List.replicate_succ, List.flatten_cons, List.sum_append,
      sum_flatten_replicate n l, succ_nsmul, add_comm]

theorem length_flatten_replicate {β : Type*} :
    ∀ (n : ℕ) (l : List β), (List.replicate n l).flatten.length = n * l.length
  | 0, l => by simp
  | n + 1, l => by
    rw [List.replicate_succ, List.flatten_cons, List.length_append,
      length_flatten_replicate n l, Nat.succ_mul, Nat.add_comm]

/-- C3 amended: the entropy tensor is not summed across action dimensions;
`learn`'s single `reduce_mean` averages over batch and action dimensions
jointly, so the entropy term equals the claimed per-sample-summed aggregation
divided by the number of action dimensions (the two agree exactly when
`action_dim = 1`). -/
theorem c3_amended_entropy_mean_over_all_entries {α : Type*} [LinearOrderedField α]
    (entDim : α → α) (logstd : List α) (batch : ℕ) :
    entropyBonus (evaluateEntropy entDim logstd batch)
      = entropySummedPerSample (evaluateEntropy entDim logstd batch) / logstd.length := by
  rw [entropyBonus, entropySummedPerSample, evaluateEntropy, meanL, meanL]
  rw [sum_flatten_replicate, length_flatten_replicate, List.map_replicate,
    List.sum_replicate, List.length_replicate, List.length_map]
  rcases Nat.eq_zero_or_pos batch with hb | hb
  · subst hb
    simp
  · have hbne : ((batch : α)) ≠ 0 := by
      exact_mod_cast Nat.pos_iff_ne_zero.mp hb
    simp only [nsmul_eq_mul]
    push_cast
    rw [div_div]

/-! ## Advantage normalization in `PPO.train`

`train` normalizes the whole-episode GAE vector by
`(gaes - gaes.mean()) / gaes.std()`.  `np.std` is the square root of the
mean squared deviation (`ddof = 0`), which forces the real numbers here. -/

/-- Population variance `np.var` with `ddof = 0`: mean squared deviation from the mean. -/
noncomputable def varNp (l : List ℝ) : ℝ :=
  meanL (l.map (fun x => (x - meanL l) ^ 2))

/-- Population standard deviation `np.std` with `ddof = 0`. -/
noncomputable def stdNp (l : List ℝ) : ℝ :=
  Real.sqrt (varNp l)

/-- The normalization `(gaes - gaes.mean()) / gaes.std()` of `PPO.train`. -/
noncomputable def normalizeNp (l : List ℝ) : List ℝ :=
  l.map (fun x => (x - meanL l) / stdNp l)

/-- The advantage vector `PPO.train` hands to the update loop: the GAE vector
of the episode, normalized; computed unconditionally, with no guard on the
standard deviation. -/
noncomputable def episodeAdvantages (γ lam : ℝ) (rewards v_preds next_v_preds : List ℝ) : List ℝ :=
  normalizeNp (get_gaes γ lam rewards v_preds next_v_preds)

theorem sum_map_sub_div (c s : ℝ) :
    ∀ l : List ℝ, (l.map (fun x => (x - c) / s)).sum = (l.sum - l.length * c) / s
  | [] => by simp
  | a :: l => by
    rw [List.map_cons, List.sum_cons, sum_map_sub_div c s l, div_add_div_same,
      List.sum_cons, List.length_cons]
    push_cast
    ring_nf

theorem sum_map_sq_div (c s : ℝ) :
    ∀ l : List ℝ,
      (l.map (fun x => ((x - c) / s) ^ 2)).sum = (l.map (fun x => (x - c) ^ 2)).sum / s ^ 2
  | [] => by simp
  | a :: l => by
    rw [List.map_cons, List.sum_cons, sum_map_sq_div c s l, List.map_cons,
      List.sum_cons, div_pow, div_add_div_same]

theorem length_cast_ne_zero {l : List ℝ} (h : l ≠ []) : (l.length : ℝ) ≠ 0 := by
  have := List.length_pos.mpr h
  positivity

theorem meanL_normalizeNp (l : List ℝ) (h : l ≠ []) : meanL (normalizeNp l) = 0 := by
  have hn : (l.length : ℝ) ≠ 0 := length_cast_ne_zero h
  have hcancel : (l.length : ℝ) * (l.sum / l.length) = l.sum := by
    field_simp
  rw [meanL, normalizeNp, List.length_map, sum_map_sub_div, meanL, hcancel,
    sub_self, zero_div, zero_div]

theorem varNp_nonneg (l : List ℝ) : 0 ≤ varNp l := by
  rw [varNp, meanL]
  apply div_nonneg
  · apply List.sum_nonneg
    intro x hx
    obtain ⟨y, _, rfl⟩ := List.mem_map.mp hx
    positivity
  · positivity

theorem single_le_sum_of_nonneg :
    ∀ l : List ℝ, (∀ y ∈ l, 0 ≤ y) → ∀ x ∈ l, x ≤ l.sum
  | [], _, x, hx => by simp at hx
  | a :: l, hpos, x, hx => by
    rw [List.sum_cons]
    rcases List.mem_cons.mp hx with rfl | hx'
    · have : 0 ≤ l.sum :=
        List.sum_nonneg (fun y hy => hpos y (List.mem_cons_of_mem _ hy))
      linarith
    · have h1 := single_le_sum_of_nonneg l
        (fun y hy => hpos y (List.mem_cons_of_mem _ hy)) x hx'
      have h2 : 0 ≤ a := hpos a (List.mem_cons_self _ _)
      linarith

theorem varNp_pos_of_nonconst (l : List ℝ) (h : l ≠ [])
    (a : ℝ) (ha : a ∈ l) (b : ℝ) (hb : b ∈ l) (hab : a ≠ b) : 0 < varNp l := by
  have hx : ∃ x ∈ l, x ≠ meanL l := by
    by_contra hcon
    push_neg at hcon
    exact hab ((hcon a ha).trans (hcon b hb).symm)
  obtain ⟨x, hxl, hxne⟩ := hx
  have hsub : x - meanL l ≠ 0 := sub_ne_zero.mpr hxne
  have hterm : 0 < (x - meanL l) ^ 2 := by positivity
  have hmem : (x - meanL l) ^ 2 ∈ l.map (fun y => (y - meanL l) ^ 2) :=
    List.mem_map_of_mem _ hxl
  have hsum : (x - meanL l) ^ 2 ≤ (l.map (fun y => (y - meanL l) ^ 2)).sum := by
    apply single_le_sum_of_nonneg _ _ _ hmem
    intro y hy
    obtain ⟨z, _, rfl⟩ := List.mem_map.mp hy
    positivity
  have hlen : 0 < ((l.map (fun y => (y - meanL l) ^ 2)).length : ℝ) := by
    rw [List.length_map]
    exact_mod_cast List.length_pos.mpr h
  rw [varNp, meanL]
  exact div_pos (lt_of_lt_of_le hterm hsum) hlen

theorem varNp_normalizeNp (l : List ℝ) (h : l ≠ []) (hv : varNp l ≠ 0) :
    varNp (normalizeNp l) = 1 := by
  have h0 : meanL (normalizeNp l) = 0 := meanL_normalizeNp l h
  have hs2 : stdNp l ^ 2 = varNp l := Real.sq_sqrt (varNp_nonneg l)
  rw [varNp, h0]
  simp only [sub_zero, normalizeNp, List.map_map, Function.comp_def]
  have hvar : varNp l = (l.map (fun x => (x - meanL l) ^ 2)).sum / (l.length : ℝ) := by
    rw [varNp]
    rw [meanL]
    rw [List.length_map]
  rw [meanL, List.length_map, sum_map_sq_div, hs2, div_div,
    mul_comm (varNp l), ← div_div, ← hvar]
  exact div_self hv

/-- C6: for every episode whose GAE vector has length at least 2 and is not
constant, the normalized advantage vector `(gaes - mean(gaes)) / std(gaes)`
computed in `train` has mean `0` and standard deviation `1` (exactly, in real
arithmetic). -/
theorem c6_normalized_advantages_standardized (γ lam : ℝ) (r v nv : List ℝ)
    (hlen : 2 ≤ (get_gaes γ lam r v nv).length)
    (hnc : ∃ a ∈ get_gaes γ lam r v nv, ∃ b ∈ get_gaes γ lam r v nv, a ≠ b) :
    meanL (episodeAdvantages γ lam r v nv) = 0 ∧
    stdNp (episodeAdvantages γ lam r v nv) = 1 := by
  have hne : get_gaes γ lam r v nv ≠ [] := by
    intro hnil
    rw [hnil] at hlen
    simp at hlen
  obtain ⟨a, ha, b, hb, hab⟩ := hnc
  have hvpos := varNp_pos_of_nonconst (get_gaes γ lam r v nv) hne a ha b hb hab
  refine ⟨meanL_normalizeNp _ hne, ?_⟩
  rw [episodeAdvantages, stdNp,
    varNp_normalizeNp _ hne (ne_of_gt hvpos), Real.sqrt_one]

/-- C6 witness: the 2-step episode with `gamma = lam = 1`, rewards `[2, 0]`
and zero value predictions has GAE vector `[2, 0]`, and its normalization has
mean `0` and standard deviation `1`. -/
theorem c6_normalized_advantages_standardized_witness :
    2 ≤ (get_gaes (1 : ℝ) 1 [2, 0] [0, 0] [0, 0]).length ∧
    (∃ a ∈ get_gaes (1 : ℝ) 1 [2, 0] [0, 0] [0, 0],
      ∃ b ∈ get_gaes (1 : ℝ) 1 [2, 0] [0, 0] [0, 0], a ≠ b) ∧
    meanL (episodeAdvantages (1 : ℝ) 1 [2, 0] [0, 0] [0, 0]) = 0 ∧
    stdNp (episodeAdvantages (1 : ℝ) 1 [2, 0] [0, 0] [0, 0]) = 1 := by
  have hg : get_gaes (1 : ℝ) 1 [2, 0] [0, 0] [0, 0] = [2, 0] := by
    norm_num [get_gaes, deltasOf, gaesAux]
  have hlen : 2 ≤ (get_gaes (1 : ℝ) 1 [2, 0] [0, 0] [0, 0]).length := by
    rw [hg]
    norm_num
  have hnc : ∃ a ∈ get_gaes (1 : ℝ) 1 [2, 0] [0, 0] [0, 0],
      ∃ b ∈ get_gaes (1 : ℝ) 1 [2, 0] [0, 0] [0, 0], a ≠ b := by
    rw [hg]
    exact ⟨2, by norm_num, 0, by norm_num, by norm_num⟩
  exact ⟨hlen, hnc,
    c6_normalized_advantages_standardized 1 1 [2, 0] [0, 0] [0, 0] hlen hnc⟩

theorem sum_of_all_eq (c : ℝ) :
    ∀ l : List ℝ, (∀ y ∈ l, y = c) → l.sum = l.length * c
  | [], _ => by simp
  | a :: l, h => by
    rw [List.sum_cons, sum_of_all_eq c l (fun y hy => h y (List.mem_cons_of_mem _ hy)),
      h a (List.mem_cons_self _ _), List.length_cons]
    push_cast
    ring

theorem meanL_of_const (l : List ℝ) (h : l ≠ []) (c : ℝ)
    (hall : ∀ y ∈ l, y = c) : meanL l = c := by
  rw [meanL, sum_of_all_eq c l hall, mul_comm,
    mul_div_assoc, div_self (length_cast_ne_zero h), mul_one]

theorem varNp_of_const (l : List ℝ) (h : l ≠ [])
    (hc : ∀ x ∈ l, ∀ y ∈ l, x = y) : varNp l = 0 := by
  obtain ⟨x₀, hx₀⟩ := List.exists_mem_of_ne_nil l h
  have hall : ∀ y ∈ l, y = x₀ := fun y hy => hc y hy x₀ hx₀
  have hmean : meanL l = x₀ := meanL_of_const l h x₀ hall
  have hzero : ∀ w ∈ l.map (fun y => (y - meanL l) ^ 2), w = 0 := by
    intro w hw
    obtain ⟨y, hy, rfl⟩ := List.mem_map.mp hw
    rw [hmean, hall y hy]
    ring
  rw [varNp, meanL, sum_of_all_eq 0 _ hzero, mul_zero, zero_div]

/-- C10: if an episode's GAE vector is constant — in particular, every
length-1 episode — then its standard deviation is `0`, and the normalization
`(gaes - gaes.mean()) / gaes.std()` performed unconditionally by `train`
divides every entry by zero; `train` has no guard for this case (in the real
embedding the division by the zero standard deviation is exhibited literally;
in NumPy float arithmetic it yields NaN advantages passed on to `learn`). -/
theorem c10_constant_gaes_normalization_divides_by_zero (γ lam : ℝ) (r v nv : List ℝ)
    (hne : get_gaes γ lam r v nv ≠ [])
    (hc : ∀ x ∈ get_gaes γ lam r v nv, ∀ y ∈ get_gaes γ lam r v nv, x = y) :
    stdNp (get_gaes γ lam r v nv) = 0 ∧
    episodeAdvantages γ lam r v nv
      = (get_gaes γ lam r v nv).map
          (fun x => (x - meanL (get_gaes γ lam r v nv)) / 0) := by
  have hvar : varNp (get_gaes γ lam r v nv) = 0 := varNp_of_const _ hne hc
  have hstd : stdNp (get_gaes γ lam r v nv) = 0 := by
    rw [stdNp, hvar, Real.sqrt_zero]
  exact ⟨hstd, by rw [episodeAdvantages, normalizeNp, hstd]⟩

/-- C10 witness: the 1-step episode with `gamma = lam = 1`, reward `[1]` and
zero value predictions has the constant GAE vector `[1]`; its standard
deviation is `0` and the advantage `train` computes is `(1 - 1) / 0`. -/
theorem c10_constant_gaes_normalization_divides_by_zero_witness :
    get_gaes (1 : ℝ) 1 [1] [0] [0] ≠ [] ∧
    (∀ x ∈ get_gaes (1 : ℝ) 1 [1] [0] [0],
      ∀ y ∈ get_gaes (1 : ℝ) 1 [1] [0] [0], x = y) ∧
    stdNp (get_gaes (1 : ℝ) 1 [1] [0] [0]) = 0 ∧
    episodeAdvantages (1 : ℝ) 1 [1] [0] [0]
      = (get_gaes (1 : ℝ) 1 [1] [0] [0]).map
          (fun x => (x - meanL (get_gaes (1 : ℝ) 1 [1] [0] [0])) / 0) := by
  have hg : get_gaes (1 : ℝ) 1 [1] [0] [0] = [1] := by
    norm_num [get_gaes, deltasOf, gaesAux]
  have hne : get_gaes (1 : ℝ) 1 [1] [0] [0] ≠ [] := by
    rw [hg]
    norm_num
  have hc : ∀ x ∈ get_gaes (1 : ℝ) 1 [1] [0] [0],
      ∀ y ∈ get_gaes (1 : ℝ) 1 [1] [0] [0], x = y := by
    rw [hg]
    intro x hx y hy
    rw [List.mem_singleton] at hx hy
    rw [hx, hy]
  exact ⟨hne, hc,
    (c10_constant_gaes_normalization_divides_by_zero 1 1 [1] [0] [0] hne hc).1,
    (c10_constant_gaes_normalization_divides_by_zero 1 1 [1] [0] [0] hne hc).2⟩

/-! ## The training loop (`PPO.train`)

Control-flow model of `train`.  Abstract components: the environment's
`step` (`S → action → next_state × reward × done`), the agent's `act`
restricted to what the loop consumes (`params → state → action × value ×
log_prob`), the optimizer step of `learn` (`params → batch → params`, a black
box since it runs the network and autodiff), and the `np.random.randint`
sampler (`epoch ↦ list of indices`).  The inner `while not done and steps <
max_steps` loop is fuel-indexed by the remaining steps; the outer `while
epoch < max_epochs` loop is fuel-indexed with an `Option` result so that
termination is the existence of sufficient fuel.  Counters track the calls to
`save_model` and the `Loss/*` scalar emissions (four per update). -/

/-- The per-episode trajectory arrays of `PPO.train`'s rollout phase, plus
the `steps` counter. -/
structure RollData (S : Type) where
  obs : List S
  acts : List (List ℝ)
  logps : List ℝ
  rewards : List ℝ
  v_preds : List ℝ
  steps : ℕ

/-- One episode's data-collection loop: act, step the environment, append
`(reward, value, obs, action, log_prob)`, stop on `done` or when the step
budget `max_steps` is exhausted. -/
def rolloutAux {S P : Type} (actf : P → S → List ℝ × ℝ × ℝ)
    (stepE : S → List ℝ → S × ℝ × Bool) (p : P) : ℕ → S → RollData S
  | 0, _ => ⟨[], [], [], [], [], 0⟩
  | n + 1, s =>
    let avl := actf p s
    let srd := stepE s avl.1
    if srd.2.2 then
      ⟨[s], [avl.1], [avl.2.2], [srd.2.1], [avl.2.1], 1⟩
    else
      let rest := rolloutAux actf stepE p n srd.1
      ⟨s :: rest.obs, avl.1 :: rest.acts, avl.2.2 :: rest.logps,
        srd.2.1 :: rest.rewards, avl.2.1 :: rest.v_preds, rest.steps + 1⟩

/-- The six parallel arrays `data = [obs, actions, log_probs, next_v_preds,
rewards, gaes]` that `train` samples minibatches from. -/
structure BatchData (S : Type) where
  obs : List S
  acts : List (List ℝ)
  logps : List ℝ
  next_v_preds : List ℝ
  rewards : List ℝ
  gaes : List ℝ

/-- Gather `np.take(a, indices, axis=0)` applied to all six arrays (the sampler's
indices are in range whenever the episode is nonempty, so the total `getD`
with a default is exact on every reachable input). -/
def gatherBatch {S : Type} (s0 : S) (d : BatchData S) (idx : List ℕ) : BatchData S :=
  ⟨idx.map (fun j => d.obs.getD j s0), idx.map (fun j => d.acts.getD j []),
    idx.map (fun j => d.logps.getD j 0), idx.map (fun j => d.next_v_preds.getD j 0),
    idx.map (fun j => d.rewards.getD j 0), idx.map (fun j => d.gaes.getD j 0)⟩

/-- The `for i in range(n_updates)` loop of `train`: sample a minibatch, run
`learn`, emit the four `Loss/*` scalars, increment `epoch`.  Returns the new
params, the new epoch, and the new loss-metric count. -/
def runUpdates {S P : Type} (learnf : P → BatchData S → P) (sampler : ℕ → List ℕ)
    (s0 : S) (d : BatchData S) : ℕ → P → ℕ → ℕ → P × ℕ × ℕ
  | 0, p, e, m => (p, e, m)
  | n + 1, p, e, m =>
    runUpdates learnf sampler s0 d n (learnf p (gatherBatch s0 d (sampler e))) (e + 1) (m + 4)

/-- The mutable state of `train`'s outer loop, plus observation counters for
`save_model` calls and `Loss/*` scalar emissions. -/
structure TrainSt (P : Type) where
  params : P
  episode : ℕ
  epoch : ℕ
  saves : ℕ
  metrics : ℕ

/-- One iteration of `train`'s outer loop: collect an episode, build
`next_v_preds = v_preds[1:] + [0]`, compute and normalize the GAE
advantages, run `n_updates` learner updates, then the two conditional
checkpoint saves (`steps >= max_steps`, `episode % save_freq == 0`). -/
noncomputable def trainIter {S P : Type} (γ lam : ℝ) (actf : P → S → List ℝ × ℝ × ℝ)
    (stepE : S → List ℝ → S × ℝ × Bool) (learnf : P → BatchData S → P)
    (sampler : ℕ → List ℕ) (reset : Unit → S) (maxSteps nUpdates saveFreq : ℕ)
    (st : TrainSt P) : TrainSt P :=
  let rd := rolloutAux actf stepE st.params maxSteps (reset ())
  let nvp := rd.v_preds.drop 1 ++ [0]
  let gaes := episodeAdvantages γ lam rd.rewards rd.v_preds nvp
  let d : BatchData S := ⟨rd.obs, rd.acts, rd.logps, nvp, rd.rewards, gaes⟩
  let pem := runUpdates learnf sampler (reset ()) d nUpdates st.params st.epoch st.metrics
  let ep := st.episode + 1
  ⟨pem.1, ep, pem.2.1,
    st.saves + (if maxSteps ≤ rd.steps then 1 else 0)
      + (if ep % saveFreq = 0 then 1 else 0),
    pem.2.2⟩

/-- The outer `while epoch < max_epochs` loop of `train`, fuel-indexed; on exit
the final checkpoint is saved unconditionally.  `none` means the fuel ran out
before the loop exited. -/
noncomputable def trainLoop {S P : Type} (γ lam : ℝ) (actf : P → S → List ℝ × ℝ × ℝ)
    (stepE : S → List ℝ → S × ℝ × Bool) (learnf : P → BatchData S → P)
    (sampler : ℕ → List ℕ) (reset : Unit → S)
    (maxEpochs maxSteps nUpdates saveFreq : ℕ) : ℕ → TrainSt P → Option (TrainSt P)
  | 0, st =>
    if st.epoch < maxEpochs then none
    else some ⟨st.params, st.episode, st.epoch, st.saves + 1, st.metrics⟩
  | f + 1, st =>
    if st.epoch < maxEpochs then
      trainLoop γ lam actf stepE learnf sampler reset maxEpochs maxSteps nUpdates saveFreq f
        (trainIter γ lam actf stepE learnf sampler reset maxSteps nUpdates saveFreq st)
    else some ⟨st.params, st.episode, st.epoch, st.saves + 1, st.metrics⟩

theorem runUpdates_epoch_metrics {S P : Type} (learnf : P → BatchData S → P)
    (sampler : ℕ → List ℕ) (s0 : S) (d : BatchData S) :
    ∀ (n : ℕ) (p : P) (e m : ℕ),
      (runUpdates learnf sampler s0 d n p e m).2.1 = e + n ∧
      (runUpdates learnf sampler s0 d n p e m).2.2 = m + 4 * n
  | 0, p, e, m => by simp [runUpdates]
  | n + 1, p, e, m => by
    have ih := runUpdates_epoch_metrics learnf sampler s0 d n
      (learnf p (gatherBatch s0 d (sampler e))) (e + 1) (m + 4)
    rw [runUpdates]
    exact ⟨by rw [ih.1]; omega, by rw [ih.2]; omega⟩

theorem rolloutAux_lengths {S P : Type} (actf : P → S → List ℝ × ℝ × ℝ)
    (stepE : S → List ℝ → S × ℝ × Bool) (p : P) :
    ∀ (n : ℕ) (s : S),
      (rolloutAux actf stepE p n s).obs.length = (rolloutAux actf stepE p n s).steps ∧
      (rolloutAux actf stepE p n s).acts.length = (rolloutAux actf stepE p n s).steps ∧
      (rolloutAux actf stepE p n s).logps.length = (rolloutAux actf stepE p n s).steps ∧
      (rolloutAux actf stepE p n s).rewards.length = (rolloutAux actf stepE p n s).steps ∧
      (rolloutAux actf stepE p n s).v_preds.length = (rolloutAux actf stepE p n s).steps
  | 0, s => by simp [rolloutAux]
  | n + 1, s => by
    rw [rolloutAux]
    by_cases hdone : (stepE s (actf p s).1).2.2
    · simp [hdone]
    · have ih := rolloutAux_lengths actf stepE p n (stepE s (actf p s).1).1
      simp only [hdone]
      simpa using ih

theorem rolloutAux_steps_pos {S P : Type} (actf : P → S → List ℝ × ℝ × ℝ)
    (stepE : S → List ℝ → S × ℝ × Bool) (p : P) (n : ℕ) (s : S) (hn : 1 ≤ n) :
    1 ≤ (rolloutAux actf stepE p n s).steps := by
  cases n with
  | zero => omega
  | succ n =>
    rw [rolloutAux]
    by_cases hdone : (stepE s (actf p s).1).2.2
    · simp [hdone]
    · simp [hdone]

/-- C9: in every episode of the training loop (at least one step available),
the five trajectory arrays collected during the rollout, the shifted
`next_v_preds = v_preds[1:] + [0]`, the GAE vector returned by `get_gaes`,
and the normalized advantages all have the same length, equal to the number
of environment steps taken in the episode. -/
theorem c9_episode_array_lengths {S P : Type} (γ lam : ℝ)
    (actf : P → S → List ℝ × ℝ × ℝ) (stepE : S → List ℝ → S × ℝ × Bool)
    (p : P) (maxSteps : ℕ) (s : S) (hms : 1 ≤ maxSteps) :
    1 ≤ (rolloutAux actf stepE p maxSteps s).steps ∧
    (rolloutAux actf stepE p maxSteps s).obs.length
      = (rolloutAux actf stepE p maxSteps s).steps ∧
    (rolloutAux actf stepE p maxSteps s).acts.length
      = (rolloutAux actf stepE p maxSteps s).steps ∧
    (rolloutAux actf stepE p maxSteps s).logps.length
      = (rolloutAux actf stepE p maxSteps s).steps ∧
    (rolloutAux actf stepE p maxSteps s).rewards.length
      = (rolloutAux actf stepE p maxSteps s).steps ∧
    (rolloutAux actf stepE p maxSteps s).v_preds.length
      = (rolloutAux actf stepE p maxSteps s).steps ∧
    ((rolloutAux actf stepE p maxSteps s).v_preds.drop 1 ++ [0]).length
      = (rolloutAux actf stepE p maxSteps s).steps ∧
    (get_gaes γ lam (rolloutAux actf stepE p maxSteps s).rewards
        (rolloutAux actf stepE p maxSteps s).v_preds
        ((rolloutAux actf stepE p maxSteps s).v_preds.drop 1 ++ [0])).length
      = (rolloutAux actf stepE p maxSteps s).steps ∧
    (episodeAdvantages γ lam (rolloutAux actf stepE p maxSteps s).rewards
        (rolloutAux actf stepE p maxSteps s).v_preds
        ((rolloutAux actf stepE p maxSteps s).v_preds.drop 1 ++ [0])).length
      = (rolloutAux actf stepE p maxSteps s).steps := by
  obtain ⟨ho, ha, hl, hr, hv⟩ := rolloutAux_lengths actf stepE p maxSteps s
  have hpos := rolloutAux_steps_pos actf stepE p maxSteps s hms
  have hnvp : ((rolloutAux actf stepE p maxSteps s).v_preds.drop 1 ++ [0]).length
      = (rolloutAux actf stepE p maxSteps s).steps := by
    rw [List.length_append, List.length_drop, hv]
    simp
    omega
  have hgae : (get_gaes γ lam (rolloutAux actf stepE p maxSteps s).rewards
      (rolloutAux actf stepE p maxSteps s).v_preds
      ((rolloutAux actf stepE p maxSteps s).v_preds.drop 1 ++ [0])).length
      = (rolloutAux actf stepE p maxSteps s).steps := by
    rw [get_gaes, gaesAux_length, deltasOf, map3_length, hnvp, hr, hv]
    omega
  refine ⟨hpos, ho, ha, hl, hr, hv, hnvp, hgae, ?_⟩
  rw [episodeAdvantages, normalizeNp, List.length_map, hgae]

/-- A trivial fixed-reward environment: reward `1` on every step, `done`
after the third step of an episode, state counts the steps taken so far. -/
def trivEnvStep (s : ℕ) : List ℝ → ℕ × ℝ × Bool :=
  fun _ => (s + 1, 1, decide (3 ≤ s + 1))

/-- C9 witness: the length invariants on the trivial environment with
`max_steps = 5` and a concrete constant policy. -/
theorem c9_episode_array_lengths_witness :
    (1 : ℕ) ≤ 5 ∧
    1 ≤ (rolloutAux (fun _ _ => ([], 0, 0)) trivEnvStep () 5 0).steps ∧
    (rolloutAux (fun _ _ => ([], 0, 0)) trivEnvStep () 5 0).obs.length
      = (rolloutAux (fun _ _ => ([], 0, 0)) trivEnvStep () 5 0).steps ∧
    (rolloutAux (fun _ _ => ([], 0, 0)) trivEnvStep () 5 0).rewards.length
      = (rolloutAux (fun _ _ => ([], 0, 0)) trivEnvStep () 5 0).steps ∧
    ((rolloutAux (fun _ _ => ([], 0, 0)) trivEnvStep () 5 0).v_preds.drop 1
        ++ [0]).length
      = (rolloutAux (fun _ _ => ([], 0, 0)) trivEnvStep () 5 0).steps ∧
    (episodeAdvantages 1 1 (rolloutAux (fun _ _ => ([], 0, 0)) trivEnvStep () 5 0).rewards
        (rolloutAux (fun _ _ => ([], 0, 0)) trivEnvStep () 5 0).v_preds
        ((rolloutAux (fun _ _ => ([], 0, 0)) trivEnvStep () 5 0).v_preds.drop 1 ++ [0])).length
      = (rolloutAux (fun _ _ => ([], 0, 0)) trivEnvStep () 5 0).steps := by
  have h := c9_episode_array_lengths 1 1 (fun _ _ => (([] : List ℝ), (0 : ℝ), (0 : ℝ)))
    trivEnvStep () 5 0 (by omega)
  exact ⟨by omega, h.1, h.2.1, h.2.2.2.2.1, h.2.2.2.2.2.2.1, h.2.2.2.2.2.2.2.2⟩

/-- C7: running `train` with `max_epochs = 1`, `max_steps = 5` and the
default `save_freq = 50` on the trivial fixed-reward environment (episodes
terminate after 3 steps, before `max_steps`) terminates with fuel `1` on the
outer loop — each episode raises `epoch` by `n_updates ≥ 1` until
`epoch ≥ max_epochs` — performs exactly one checkpoint save (the
unconditional final one on exit), and emits at least `n_updates` loss-metric
entries. -/
theorem c7_train_terminates_single_save {P : Type} (γ lam : ℝ) (p0 : P)
    (actf : P → ℕ → List ℝ × ℝ × ℝ) (learnf : P → BatchData ℕ → P)
    (sampler : ℕ → List ℕ) (nUpdates : ℕ) (h : 1 ≤ nUpdates) :
    ∃ st : TrainSt P,
      trainLoop γ lam actf trivEnvStep learnf sampler (fun _ => 0) 1 5 nUpdates 50 1
          ⟨p0, 0, 0, 0, 0⟩ = some st ∧
      st.saves = 1 ∧ nUpdates ≤ st.metrics ∧ st.epoch = nUpdates := by
  have hsteps : (rolloutAux actf trivEnvStep p0 5 (0 : ℕ)).steps = 3 := by
    simp [rolloutAux, trivEnvStep]
  set st1 := trainIter γ lam actf trivEnvStep learnf sampler (fun _ => 0) 5 nUpdates 50
    ⟨p0, 0, 0, 0, 0⟩ with hst1
  have hepoch : st1.epoch = nUpdates := by
    simp only [hst1, trainIter]
    rw [(runUpdates_epoch_metrics learnf sampler _ _ nUpdates p0 0 0).1]
    omega
  have hmetrics : st1.metrics = 4 * nUpdates := by
    simp only [hst1, trainIter]
    rw [(runUpdates_epoch_metrics learnf sampler _ _ nUpdates p0 0 0).2]
    omega
  have hsaves : st1.saves = 0 := by
    simp only [hst1, trainIter]
    rw [hsteps]
    norm_num
  refine ⟨⟨st1.params, st1.episode, st1.epoch, st1.saves + 1, st1.metrics⟩, ?_, ?_, ?_, ?_⟩
  · rw [trainLoop]
    rw [if_pos (show (⟨p0, 0, 0, 0, 0⟩ : TrainSt P).epoch < 1 from Nat.zero_lt_one)]
    rw [← hst1, trainLoop]
    rw [if_neg (by rw [hepoch]; omega)]
  · show st1.saves + 1 = 1
    rw [hsaves]
  · show nUpdates ≤ st1.metrics
    rw [hmetrics]
    omega
  · exact hepoch

/-- C7 witness: the termination-and-bookkeeping theorem at the default
`n_updates = 4` with a concrete constant policy and identity learner. -/
theorem c7_train_terminates_single_save_witness :
    (1 : ℕ) ≤ 4 ∧
    ∃ st : TrainSt Unit,
      trainLoop 1 1 (fun _ _ => ([], 0, 0)) trivEnvStep (fun p _ => p)
          (fun _ => []) (fun _ => 0) 1 5 4 50 1 ⟨(), 0, 0, 0, 0⟩ = some st ∧
      st.saves = 1 ∧ 4 ≤ st.metrics ∧ st.epoch = 4 :=
  ⟨by omega,
    c7_train_terminates_single_save 1 1 () (fun _ _ => ([], 0, 0)) (fun p _ => p)
      (fun _ => []) 4 (by omega)⟩

end PPO
